import Mathlib

/-!
Verification of the SmartGlasses frame-relay scripts.

The repository contains four Python scripts:
  * `computer_server.py` / `pi_client.py` — reliable stream mode
    (length-prefixed TCP framing, voice-command mode control),
  * `computer_server_lowlatency.py` / `pi_client_lowlatency.py` — datagram
    mode (UDP chunking, reassembly buffer with eviction, keyboard control).

Below, the relevant functions are shallowly embedded in Lean: byte strings
become `List Nat`, Python dicts become association lists with overwrite
insertion (insertion order preserved, as for Python dicts), machine
integers are `Nat`/`Int` with explicit limits where it matters, and code
that can raise returns `Option`.
-/

namespace SmartGlasses

/-! ## Big-endian byte encoding (`struct.pack`/`struct.unpack` with `!IHHI`) -/

/-- Big-endian encoding of `v` into `w` bytes (each byte a `Nat < 256`),
as produced by `struct.pack` for the header fields. -/
def toBytesBE : Nat → Nat → List Nat
  | 0, _ => []
  | w + 1, v => toBytesBE w (v / 256) ++ [v % 256]

/-- Big-endian decoding of a byte list, as done by `struct.unpack`. -/
def fromBytesBE (bs : List Nat) : Nat :=
  bs.foldl (fun a b => a * 256 + b) 0

theorem length_toBytesBE (w v : Nat) : (toBytesBE w v).length = w := by
  induction w generalizing v with
  | zero => rfl
  | succ w ih => simp [toBytesBE, ih]

theorem fromBytesBE_append_singleton (bs : List Nat) (b : Nat) :
    fromBytesBE (bs ++ [b]) = fromBytesBE bs * 256 + b := by
  simp [fromBytesBE]

theorem fromBytesBE_toBytesBE (w v : Nat) (h : v < 256 ^ w) :
    fromBytesBE (toBytesBE w v) = v := by
  induction w generalizing v with
  | zero =>
    have : v = 0 := by omega
    subst this; rfl
  | succ w ih =>
    have hdiv : v / 256 < 256 ^ w := by
      rw [Nat.div_lt_iff_lt_mul (by norm_num)]
      calc v < 256 ^ (w + 1) := h
        _ = 256 ^ w * 256 := by ring
    calc fromBytesBE (toBytesBE (w + 1) v)
        = fromBytesBE (toBytesBE w (v / 256) ++ [v % 256]) := rfl
      _ = fromBytesBE (toBytesBE w (v / 256)) * 256 + v % 256 :=
          fromBytesBE_append_singleton _ _
      _ = v / 256 * 256 + v % 256 := by rw [ih _ hdiv]
      _ = v := by omega

/-! ## Datagram chunking (`send_frame_udp`)

Both `computer_server_lowlatency.py` and `pi_client_lowlatency.py` define
the same `send_frame_udp`: the JPEG payload is cut into consecutive slices
of at most `MAX_CHUNK = 60000` bytes, and each slice is sent prefixed by
the 12-byte header `struct.pack('!IHHI', frame_id, i, total_chunks,
len(data))`. -/

def MAX_CHUNK : Nat := 60000

/-- `total_chunks = (len(data) + MAX_CHUNK - 1) // MAX_CHUNK`. -/
def numChunks (C len : Nat) : Nat := (len + C - 1) / C

/-- The `i`-th slice `data[i*C : min(i*C + C, len(data))]`. -/
def chunkAt (C : Nat) (data : List α) (i : Nat) : List α :=
  (data.drop (i * C)).take C

/-- The list of payload slices produced by the send loop. -/
def sendChunks (C : Nat) (data : List α) : List (List α) :=
  (List.range (numChunks C data.length)).map (chunkAt C data)

theorem numChunks_zero {C : Nat} (hC : 0 < C) : numChunks C 0 = 0 := by
  unfold numChunks
  exact Nat.div_eq_of_lt (by omega)

theorem numChunks_step {C : Nat} (hC : 0 < C) (len : Nat) (hlen : 0 < len) :
    numChunks C len = numChunks C (len - C) + 1 := by
  unfold numChunks
  rcases le_or_lt len C with hle | hlt
  · have h1 : len + C - 1 = (len - 1) + C := by omega
    have h2 : len - C = 0 := by omega
    rw [h1, h2, Nat.add_div_right _ hC]
    have : (len - 1) / C = 0 := Nat.div_eq_of_lt (by omega)
    have h3 : (0 + C - 1) / C = 0 := Nat.div_eq_of_lt (by omega)
    omega
  · have h1 : len + C - 1 = (len - 1) + C := by omega
    have h2 : len - C + C - 1 = (len - C - 1) + C := by omega
    rw [h1, h2, Nat.add_div_right _ hC, Nat.add_div_right _ hC]
    have h3 : len - 1 = (len - C - 1) + C := by omega
    rw [h3, Nat.add_div_right _ hC]

theorem chunkAt_zero (C : Nat) (data : List α) : chunkAt C data 0 = data.take C := by
  simp [chunkAt]

theorem chunkAt_succ (C : Nat) (data : List α) (i : Nat) :
    chunkAt C data (i + 1) = chunkAt C (data.drop C) i := by
  simp [chunkAt, List.drop_drop, Nat.succ_mul, Nat.add_comm]

theorem sendChunks_cons {C : Nat} (hC : 0 < C) (data : List α) (hlen : 0 < data.length) :
    sendChunks C data = data.take C :: sendChunks C (data.drop C) := by
  have hstep : numChunks C data.length = numChunks C (data.drop C).length + 1 := by
    rw [List.length_drop]; exact numChunks_step hC _ hlen
  unfold sendChunks
  rw [hstep, List.range_succ_eq_map, List.map_cons, List.map_map]
  congr 1
  · exact chunkAt_zero C data
  · apply List.map_congr_left
    intro i _
    exact chunkAt_succ C data i

/-- Concatenating all slices in index order recovers the original payload. -/
theorem flatten_sendChunks {C : Nat} (hC : 0 < C) (data : List α) :
    (sendChunks C data).flatten = data := by
  have key : ∀ n (l : List α), l.length = n → (sendChunks C l).flatten = l := by
    intro n
    induction n using Nat.strong_induction_on with
    | _ n ih =>
      intro l hlen
      rcases Nat.eq_zero_or_pos l.length with h0 | hpos
      · have hl : l = [] := List.length_eq_zero.mp h0
        subst hl
        simp [sendChunks, numChunks_zero hC]
      · rw [sendChunks_cons hC l hpos, List.flatten_cons]
        have hdrop : (l.drop C).length < n := by
          rw [List.length_drop]; omega
        rw [ih _ hdrop (l.drop C) rfl, List.take_append_drop]
  exact key data.length data rfl

/-! ## Datagrams with the 12-byte header -/

/-- `struct.pack('!IHHI', frame_id, chunk_index, total_chunks, total_length)`. -/
def packHeader (fid cid total dlen : Nat) : List Nat :=
  toBytesBE 4 fid ++ toBytesBE 2 cid ++ toBytesBE 2 total ++ toBytesBE 4 dlen

/-- The datagrams emitted by `send_frame_udp` for one (already JPEG-encoded)
frame payload `data`: `header + chunk` for each chunk index. -/
def send_frame_udp (fid : Nat) (data : List Nat) : List (List Nat) :=
  (List.range (numChunks MAX_CHUNK data.length)).map
    (fun i =>
      packHeader fid i (numChunks MAX_CHUNK data.length) data.length ++
        chunkAt MAX_CHUNK data i)

/-- Receiver-side header parsing, `struct.unpack('!IHHI', data[:12])`. -/
def parseFrameId (d : List Nat) : Nat := fromBytesBE (d.take 4)

def parseChunkId (d : List Nat) : Nat := fromBytesBE ((d.drop 4).take 2)

def parseTotalChunks (d : List Nat) : Nat := fromBytesBE ((d.drop 6).take 2)

def parseDataLen (d : List Nat) : Nat := fromBytesBE ((d.drop 8).take 4)

/-- `chunk_data = data[12:]`. -/
def parsePayload (d : List Nat) : List Nat := d.drop 12

theorem parsePayload_pack (fid cid total dlen : Nat) (pl : List Nat) :
    parsePayload (packHeader fid cid total dlen ++ pl) = pl := by
  unfold parsePayload packHeader
  exact List.drop_left' (by simp [length_toBytesBE])

theorem parseFrameId_pack (fid cid total dlen : Nat) (pl : List Nat)
    (h : fid < 2 ^ 32) :
    parseFrameId (packHeader fid cid total dlen ++ pl) = fid := by
  unfold parseFrameId packHeader
  rw [List.append_assoc, List.append_assoc, List.append_assoc,
    List.take_left' (length_toBytesBE 4 fid)]
  exact fromBytesBE_toBytesBE 4 fid (by norm_num at h ⊢; omega)

theorem parseChunkId_pack (fid cid total dlen : Nat) (pl : List Nat)
    (h : cid < 2 ^ 16) :
    parseChunkId (packHeader fid cid total dlen ++ pl) = cid := by
  unfold parseChunkId packHeader
  rw [List.append_assoc, List.append_assoc, List.append_assoc,
    List.drop_left' (length_toBytesBE 4 fid),
    List.take_left' (length_toBytesBE 2 cid)]
  exact fromBytesBE_toBytesBE 2 cid (by norm_num at h ⊢; omega)

theorem parseTotalChunks_pack (fid cid total dlen : Nat) (pl : List Nat)
    (h : total < 2 ^ 16) :
    parseTotalChunks (packHeader fid cid total dlen ++ pl) = total := by
  unfold parseTotalChunks packHeader
  have hgrp : toBytesBE 4 fid ++ toBytesBE 2 cid ++ toBytesBE 2 total ++ toBytesBE 4 dlen ++ pl
      = (toBytesBE 4 fid ++ toBytesBE 2 cid) ++ (toBytesBE 2 total ++ (toBytesBE 4 dlen ++ pl)) := by
    simp [List.append_assoc]
  rw [hgrp, List.drop_left' (by simp [length_toBytesBE]),
    List.take_left' (length_toBytesBE 2 total)]
  exact fromBytesBE_toBytesBE 2 total (by norm_num at h ⊢; omega)

theorem parseDataLen_pack (fid cid total dlen : Nat) (pl : List Nat)
    (h : dlen < 2 ^ 32) :
    parseDataLen (packHeader fid cid total dlen ++ pl) = dlen := by
  unfold parseDataLen packHeader
  have hgrp : toBytesBE 4 fid ++ toBytesBE 2 cid ++ toBytesBE 2 total ++ toBytesBE 4 dlen ++ pl
      = (toBytesBE 4 fid ++ toBytesBE 2 cid ++ toBytesBE 2 total) ++ (toBytesBE 4 dlen ++ pl) := by
    simp [List.append_assoc]
  rw [hgrp, List.drop_left' (by simp [length_toBytesBE]),
    List.take_left' (length_toBytesBE 4 dlen)]
  exact fromBytesBE_toBytesBE 4 dlen (by norm_num at h ⊢; omega)

/-- Looking up a key in an association list whose entries pair each key with
`f` of that key returns `f` of the key. -/
theorem lookup_map_pair {β : Type} (f : Nat → β) (i : Nat) :
    ∀ l : List Nat, i ∈ l → (l.map (fun j => (j, f j))).lookup i = some (f i) := by
  intro l hmem
  induction l with
  | nil => cases hmem
  | cons j t ih =>
    by_cases hij : i = j
    · subst hij
      simp [List.lookup]
    · rcases List.mem_cons.mp hmem with h | h
      · exact absurd h hij
      · simpa [List.lookup, beq_false_of_ne hij] using ih h

/-- Receiver-side reassembly of a set of datagrams, as `main` in
`computer_server_lowlatency.py` / `receive_frames` in
`pi_client_lowlatency.py` do once the chunk set is complete:
`b''.join(chunks[i] for i in range(total_chunks))` truncated to
`data_len` (the truncation is `frame_data[:data_len]`). -/
def reassembleSet (dgs : List (List Nat)) : List Nat :=
  match dgs.head? with
  | none => []
  | some d =>
    (((List.range (parseTotalChunks d)).map
        (fun i =>
          ((dgs.map (fun d2 => (parseChunkId d2, parsePayload d2))).lookup i).getD [])).flatten).take
      (parseDataLen d)

theorem send_frame_udp_roundtrip (fid : Nat) (data : List Nat)
    (hlen : data.length < 2 ^ 32)
    (hch : numChunks MAX_CHUNK data.length < 2 ^ 16) :
    reassembleSet (send_frame_udp fid data) = data := by
  have hC : 0 < MAX_CHUNK := by norm_num [MAX_CHUNK]
  by_cases hn : numChunks MAX_CHUNK data.length = 0
  · have hdata : data = [] := by
      by_contra hne
      rw [numChunks_step hC _ (List.length_pos.mpr hne)] at hn
      omega
    subst hdata
    have hemp : send_frame_udp fid [] = [] := by
      unfold send_frame_udp
      simp only [List.length_nil] at hn ⊢
      rw [hn]
      rfl
    rw [hemp]
    rfl
  · have hmap : (send_frame_udp fid data).map
          (fun d2 => (parseChunkId d2, parsePayload d2))
        = (List.range (numChunks MAX_CHUNK data.length)).map
            (fun i => (i, chunkAt MAX_CHUNK data i)) := by
      unfold send_frame_udp
      rw [List.map_map]
      apply List.map_congr_left
      intro i hi
      have hi16 : i < 2 ^ 16 := lt_trans (List.mem_range.mp hi) hch
      simp only [Function.comp]
      rw [parseChunkId_pack _ _ _ _ _ hi16, parsePayload_pack]
    obtain ⟨m, hm⟩ := Nat.exists_eq_succ_of_ne_zero hn
    have hhead : (send_frame_udp fid data).head? =
        some (packHeader fid 0 (numChunks MAX_CHUNK data.length) data.length ++
          chunkAt MAX_CHUNK data 0) := by
      unfold send_frame_udp
      rw [List.head?_map]
      have hr : (List.range (numChunks MAX_CHUNK data.length)).head? = some 0 := by
        rw [hm, List.range_succ_eq_map]
        rfl
      rw [hr]
      rfl
    have hres : reassembleSet (send_frame_udp fid data)
        = (((List.range (parseTotalChunks
              (packHeader fid 0 (numChunks MAX_CHUNK data.length) data.length ++
                chunkAt MAX_CHUNK data 0))).map
            (fun i =>
              (((send_frame_udp fid data).map
                  (fun d2 => (parseChunkId d2, parsePayload d2))).lookup i).getD [])).flatten).take
            (parseDataLen
              (packHeader fid 0 (numChunks MAX_CHUNK data.length) data.length ++
                chunkAt MAX_CHUNK data 0)) := by
      unfold reassembleSet
      rw [hhead]
    rw [hres, parseTotalChunks_pack _ _ _ _ _ hch, parseDataLen_pack _ _ _ _ _ hlen]
    have hinner : (List.range (numChunks MAX_CHUNK data.length)).map
          (fun i =>
            (((send_frame_udp fid data).map
                (fun d2 => (parseChunkId d2, parsePayload d2))).lookup i).getD [])
        = sendChunks MAX_CHUNK data := by
      unfold sendChunks
      apply List.map_congr_left
      intro i hi
      rw [hmap, lookup_map_pair (chunkAt MAX_CHUNK data) i _ hi]
      rfl
    rw [hinner, flatten_sendChunks hC, List.take_length]

/-- **C1.** Splitting a frame payload via the datagram `send_frame_udp` into
consecutive chunks of at most `MAX_CHUNK = 60000` bytes, each prefixed by the
12-byte `(frame_id, chunk_index, total_chunks, total_length)` header, and then
reassembling the complete chunk set in index order `0..total_chunks-1`
truncated to `total_length`, reproduces the payload exactly; every datagram's
payload part indeed has at most `MAX_CHUNK` bytes.  (The payload length must
fit the `!I` length field and the chunk count the `!H` field, as with
`struct.pack` in the source.) -/
theorem C1_chunk_roundtrip (fid : Nat) (data : List Nat)
    (hlen : data.length < 2 ^ 32)
    (hch : numChunks MAX_CHUNK data.length < 2 ^ 16) :
    reassembleSet (send_frame_udp fid data) = data ∧
      ∀ d ∈ send_frame_udp fid data, (parsePayload d).length ≤ MAX_CHUNK := by
  refine ⟨send_frame_udp_roundtrip fid data hlen hch, ?_⟩
  intro d hd
  unfold send_frame_udp at hd
  obtain ⟨i, _, rfl⟩ := List.mem_map.mp hd
  rw [parsePayload_pack]
  simp [chunkAt]

/-- Witness for C1 at a concrete three-byte payload. -/
theorem C1_chunk_roundtrip_witness :
    reassembleSet (send_frame_udp 7 [1, 2, 3]) = [1, 2, 3] :=
  (C1_chunk_roundtrip 7 [1, 2, 3] (by norm_num)
    (by norm_num [numChunks, MAX_CHUNK])).1

/-! ## Reassembly buffer

The receive loops in `computer_server_lowlatency.py` (`main`) and
`pi_client_lowlatency.py` (`receive_frames`) keep
`buffer : frame_id -> {chunk_index -> chunk_bytes}` as nested Python dicts.
Dicts are embedded as association lists with overwrite insertion, which
preserves both key sets and insertion order exactly as Python dicts do. -/

abbrev Payload := List Nat

abbrev ChunkDict := List (Nat × Payload)

abbrev Buffer := List (Nat × ChunkDict)

/-- `d[k] = v` on a Python dict: overwrite in place if the key exists
(keeping its position), else append. -/
def dictInsert : List (Nat × β) → Nat → β → List (Nat × β)
  | [], k, v => [(k, v)]
  | (j, w) :: t, k, v => if k = j then (k, v) :: t else (j, w) :: dictInsert t k v

/-- `del d[k]` on a Python dict. -/
def dictErase (l : List (Nat × β)) (k : Nat) : List (Nat × β) :=
  l.filter (fun p => p.1 != k)

theorem lookup_dictInsert_self (l : List (Nat × β)) (k : Nat) (v : β) :
    (dictInsert l k v).lookup k = some v := by
  induction l with
  | nil => simp [dictInsert, List.lookup]
  | cons p t ih =>
    obtain ⟨j, w⟩ := p
    by_cases hkj : k = j
    · subst hkj
      simp [dictInsert, List.lookup]
    · simp [dictInsert, hkj, List.lookup, beq_false_of_ne hkj, ih]

theorem lookup_dictInsert_ne (l : List (Nat × β)) (k : Nat) (v : β) (g : Nat)
    (h : g ≠ k) : (dictInsert l k v).lookup g = l.lookup g := by
  induction l with
  | nil => simp [dictInsert, List.lookup, beq_false_of_ne h]
  | cons p t ih =>
    obtain ⟨j, w⟩ := p
    by_cases hkj : k = j
    · subst hkj
      simp [dictInsert, List.lookup, beq_false_of_ne h]
    · by_cases hgj : g = j
      · subst hgj
        simp [dictInsert, hkj, List.lookup]
      · simp [dictInsert, hkj, List.lookup, beq_false_of_ne hgj, ih]

theorem lookup_filter_of_key_true (pred : Nat × β → Bool) (g : Nat) :
    ∀ l : List (Nat × β), (∀ p ∈ l, p.1 = g → pred p = true) →
      (l.filter pred).lookup g = l.lookup g := by
  intro l h
  induction l with
  | nil => rfl
  | cons p t ih =>
    obtain ⟨j, w⟩ := p
    by_cases hgj : g = j
    · subst hgj
      have hp : pred (g, w) = true := h (g, w) (List.mem_cons_self _ _) rfl
      simp [List.filter, hp, List.lookup]
    · have ht : ∀ p ∈ t, p.1 = g → pred p = true :=
        fun p hp => h p (List.mem_cons_of_mem _ hp)
      by_cases hp : pred (j, w) = true
      · simp [List.filter, hp, List.lookup, beq_false_of_ne hgj, ih ht]
      · simp at hp
        simp [List.filter, hp, List.lookup, beq_false_of_ne hgj, ih ht]

theorem lookup_filter_of_key_false (pred : Nat × β → Bool) (g : Nat) :
    ∀ l : List (Nat × β), (∀ p ∈ l, p.1 = g → pred p = false) →
      (l.filter pred).lookup g = none := by
  intro l h
  induction l with
  | nil => rfl
  | cons p t ih =>
    obtain ⟨j, w⟩ := p
    have ht : ∀ p ∈ t, p.1 = g → pred p = false :=
      fun p hp => h p (List.mem_cons_of_mem _ hp)
    by_cases hgj : g = j
    · subst hgj
      have hp : pred (g, w) = false := h (g, w) (List.mem_cons_self _ _) rfl
      simp [List.filter, hp, ih ht]
    · by_cases hp : pred (j, w) = true
      · simp [List.filter, hp, List.lookup, beq_false_of_ne hgj, ih ht]
      · simp at hp
        simp [List.filter, hp, ih ht]

theorem lookup_dictErase_self (l : List (Nat × β)) (k : Nat) :
    (dictErase l k).lookup k = none := by
  apply lookup_filter_of_key_false
  intro p _ hp
  simp [hp]

theorem lookup_dictErase_ne (l : List (Nat × β)) (k g : Nat) (h : g ≠ k) :
    (dictErase l k).lookup g = l.lookup g := by
  apply lookup_filter_of_key_true
  intro p _ hp
  simp [hp, h]

/-- One iteration of the receive loop on an (already parsed) chunk, following
`main` in `computer_server_lowlatency.py` (window `W = 5`) and
`receive_frames` in `pi_client_lowlatency.py` (window `W = 2`):
store the chunk under its index (creating the frame entry if absent, last
write wins); on `len(chunks) == total_chunks`, reassemble
`b''.join(chunks[i] for i in range(total_chunks))` truncated to `data_len`,
delete the frame's entry, and delete every entry with
`fid < frame_id - W` (plain Python integer comparison). -/
def acceptChunk (W : Nat) (buf : Buffer) (fid cid total dlen : Nat)
    (chunk : Payload) : Buffer × Option Payload :=
  if (dictInsert ((buf.lookup fid).getD []) cid chunk).length = total then
    ((dictErase (dictInsert buf fid
        (dictInsert ((buf.lookup fid).getD []) cid chunk)) fid).filter
        (fun p => !(decide ((p.1 : Int) < (fid : Int) - (W : Int)))),
      some ((((List.range total).map
        (fun i =>
          ((dictInsert ((buf.lookup fid).getD []) cid chunk).lookup i).getD [])).flatten).take
        dlen))
  else (dictInsert buf fid (dictInsert ((buf.lookup fid).getD []) cid chunk), none)

/-- Feeding a list of chunk indices of one frame to the receive loop,
delivering `truth i` as the bytes of chunk `i`; collects the reassembled
frames the loop emits. -/
def runChunks (W fid total dlen : Nat) (truth : Nat → Payload) :
    Buffer → List Nat → Buffer × List Payload
  | buf, [] => (buf, [])
  | buf, i :: is =>
    let r := acceptChunk W buf fid i total dlen (truth i)
    let rest := runChunks W fid total dlen truth r.1 is
    (rest.1, match r.2 with
      | some f => f :: rest.2
      | none => rest.2)

/-- Shape of the completion branch of `acceptChunk`. -/
theorem acceptChunk_some (W : Nat) (buf : Buffer) (fid cid total dlen : Nat)
    (chunk f : Payload) (buf2 : Buffer)
    (h : acceptChunk W buf fid cid total dlen chunk = (buf2, some f)) :
    (dictInsert ((buf.lookup fid).getD []) cid chunk).length = total ∧
      buf2 = (dictErase (dictInsert buf fid
          (dictInsert ((buf.lookup fid).getD []) cid chunk)) fid).filter
          (fun p => !(decide ((p.1 : Int) < (fid : Int) - (W : Int)))) ∧
      f = (((List.range total).map
          (fun i => ((dictInsert ((buf.lookup fid).getD []) cid chunk).lookup i).getD [])).flatten).take
          dlen := by
  unfold acceptChunk at h
  split at h
  · exact ⟨by assumption, (Prod.mk.injEq _ _ _ _ ▸ h).1.symm,
      (Option.some.injEq _ _ ▸ (Prod.mk.injEq _ _ _ _ ▸ h).2).symm⟩
  · exact absurd (Prod.mk.injEq _ _ _ _ ▸ h).2 (by simp)

/-- Shape of the non-completion branch of `acceptChunk`. -/
theorem acceptChunk_none (W : Nat) (buf : Buffer) (fid cid total dlen : Nat)
    (chunk : Payload) (buf2 : Buffer)
    (h : acceptChunk W buf fid cid total dlen chunk = (buf2, none)) :
    (dictInsert ((buf.lookup fid).getD []) cid chunk).length ≠ total ∧
      buf2 = dictInsert buf fid
        (dictInsert ((buf.lookup fid).getD []) cid chunk) := by
  unfold acceptChunk at h
  split at h
  · exact absurd (Prod.mk.injEq _ _ _ _ ▸ h).2 (by simp)
  · exact ⟨by assumption, (Prod.mk.injEq _ _ _ _ ▸ h).1.symm⟩

theorem completed_lookup_none (W : Nat) (buf buf2 : Buffer)
    (fid cid total dlen : Nat) (ch f : Payload)
    (hcomp : acceptChunk W buf fid cid total dlen ch = (buf2, some f)) :
    buf2.lookup fid = none := by
  obtain ⟨-, hbuf2, -⟩ := acceptChunk_some _ _ _ _ _ _ _ _ _ hcomp
  subst hbuf2
  apply lookup_filter_of_key_false
  intro p hp hkey
  exfalso
  have hmem := List.mem_filter.mp hp
  have : (p.1 != fid) = true := hmem.2
  simp [hkey] at this

theorem evicted_lookup_none (W : Nat) (buf buf2 : Buffer)
    (fid cid total dlen : Nat) (ch f : Payload) (g : Nat)
    (hcomp : acceptChunk W buf fid cid total dlen ch = (buf2, some f))
    (hg : (g : Int) < (fid : Int) - (W : Int)) :
    buf2.lookup g = none := by
  obtain ⟨-, hbuf2, -⟩ := acceptChunk_some _ _ _ _ _ _ _ _ _ hcomp
  subst hbuf2
  apply lookup_filter_of_key_false
  intro p _ hkey
  simp [hkey, hg]

theorem kept_lookup_eq (W : Nat) (buf buf2 : Buffer)
    (fid cid total dlen : Nat) (ch f : Payload) (g : Nat)
    (hcomp : acceptChunk W buf fid cid total dlen ch = (buf2, some f))
    (hgfid : g ≠ fid) (hkeep : ¬((g : Int) < (fid : Int) - (W : Int))) :
    buf2.lookup g = buf.lookup g := by
  obtain ⟨-, hbuf2, -⟩ := acceptChunk_some _ _ _ _ _ _ _ _ _ hcomp
  subst hbuf2
  rw [lookup_filter_of_key_true, lookup_dictErase_ne _ _ _ hgfid,
    lookup_dictInsert_ne _ _ _ _ hgfid]
  intro p _ hkey
  simp [hkey, hkeep]

theorem nocomplete_lookup_eq (W : Nat) (buf buf2 : Buffer)
    (fid cid total dlen : Nat) (ch : Payload) (g : Nat)
    (hnone : acceptChunk W buf fid cid total dlen ch = (buf2, none))
    (hgfid : g ≠ fid) :
    buf2.lookup g = buf.lookup g := by
  obtain ⟨-, hbuf2⟩ := acceptChunk_none _ _ _ _ _ _ _ _ hnone
  subst hbuf2
  exact lookup_dictInsert_ne _ _ _ _ hgfid

/-- Modelled from the spec: the wraparound-aware modular "distance" by which
frame id `g` lies behind a newer frame id `c` in the 16-bit frame-id space.
(The source code does not define such a distance; it compares frame ids with
plain integer subtraction.) -/
def wrapBehind (g c : Nat) : Nat := (c + 65536 - g % 65536) % 65536

/-- **C2, counterexample.**  The claim requires wraparound-aware eviction.
After the 16-bit frame counter wraps, an incomplete entry for frame 65530 is
`9 > 5` frames behind a completing frame 3 in wraparound distance, yet the
receive loop keeps it: the code's test `fid < frame_id - 5` uses plain
integer subtraction (`65530 < -2` is false), not modular distance. -/
theorem C2_wraparound_counterexample :
    wrapBehind 65530 3 = 9 ∧ 5 < wrapBehind 65530 3 ∧
    (acceptChunk 5 [(65530, [(0, [7])])] 3 0 1 1 [9]).2 = some [9] ∧
    (acceptChunk 5 [(65530, [(0, [7])])] 3 0 1 1 [9]).1.lookup 65530
      = some [(0, [7])] := by
  refine ⟨by decide, by decide, ?_, ?_⟩ <;> decide

/-- **C2 (amended).**  Whenever a frame `fid` completes reassembly, the
receive loop deletes that frame's entry and deletes exactly the entries whose
frame id satisfies `g < fid - W` under plain (signed) integer comparison —
naive subtraction, not wraparound-aware modular distance; every other entry
is left untouched.  (With window 5, completing frame 16 evicts incomplete
frame 10 and keeps incomplete frame 13, as the witness shows; but after
wraparound nothing older is evicted, per the counterexample.) -/
theorem C2_completion_evicts_naive_window (W : Nat) (buf buf2 : Buffer)
    (fid cid total dlen : Nat) (ch f : Payload)
    (hcomp : acceptChunk W buf fid cid total dlen ch = (buf2, some f)) :
    buf2.lookup fid = none ∧
    (∀ g : Nat, (g : Int) < (fid : Int) - (W : Int) → buf2.lookup g = none) ∧
    (∀ g : Nat, g ≠ fid → ¬((g : Int) < (fid : Int) - (W : Int)) →
      buf2.lookup g = buf.lookup g) :=
  ⟨completed_lookup_none W buf buf2 fid cid total dlen ch f hcomp,
   fun g hg => evicted_lookup_none W buf buf2 fid cid total dlen ch f g hcomp hg,
   fun g hgfid hkeep =>
     kept_lookup_eq W buf buf2 fid cid total dlen ch f g hcomp hgfid hkeep⟩

/-- Witness for the amended C2: window 5, incomplete frames 10 and 13
buffered, frame 16 arrives and completes — 10 is evicted, 13 survives,
16's own entry is removed. -/
theorem C2_completion_evicts_naive_window_witness :
    (acceptChunk 5 [(10, [(0, [1])]), (13, [(0, [2])])] 16 0 1 3 [9]).1.lookup 10
        = none ∧
    (acceptChunk 5 [(10, [(0, [1])]), (13, [(0, [2])])] 16 0 1 3 [9]).1.lookup 13
        = some [(0, [2])] ∧
    (acceptChunk 5 [(10, [(0, [1])]), (13, [(0, [2])])] 16 0 1 3 [9]).1.lookup 16
        = none := by
  have hcomp : acceptChunk 5 [(10, [(0, [1])]), (13, [(0, [2])])] 16 0 1 3 [9]
      = ([(13, [(0, [2])])], some [9]) := by decide
  have h := C2_completion_evicts_naive_window 5 [(10, [(0, [1])]), (13, [(0, [2])])]
    [(13, [(0, [2])])] 16 0 1 3 [9] [9] hcomp
  have h1 : (acceptChunk 5 [(10, [(0, [1])]), (13, [(0, [2])])] 16 0 1 3 [9]).1
      = [(13, [(0, [2])])] := by rw [hcomp]
  rw [h1]
  exact ⟨h.2.1 10 (by decide), (h.2.2 13 (by decide) (by decide)).trans (by decide),
    h.1⟩

/-- **C3, counterexample.**  The claim says an incomplete entry is evicted as
soon as any later frame id arrives beyond the window.  In the code, eviction
runs only inside the completion branch: frame 10 is incomplete (1 of 2
chunks), then a chunk of frame 16 arrives (distance `6 > 5`) without
completing frame 16 — and frame 10's entry is still buffered. -/
theorem C3_arrival_does_not_evict_counterexample :
    (acceptChunk 5 (acceptChunk 5 [] 10 0 2 4 [1]).1 16 0 2 4 [2]).2 = none ∧
    (acceptChunk 5 (acceptChunk 5 [] 10 0 2 4 [1]).1 16 0 2 4 [2]).1.lookup 10
      = some [(0, [1])] ∧
    10 + 5 < 16 := by
  refine ⟨?_, ?_, by decide⟩ <;> decide

/-- **C3 (amended).**  An incomplete entry `g` is evicted only when some
later frame `c` *completes* with `g < c - W` (plain integer comparison): on
completion such entries are deleted, and a chunk arrival that does not
complete a frame deletes nothing (every other frame's entry is preserved
verbatim).  No housekeeping happens outside the completion branch — in
particular none on the receive timeout path, which just continues the loop. -/
theorem C3_eviction_only_on_completion (W : Nat) :
    (∀ (buf buf2 : Buffer) (c cid total dlen : Nat) (ch f : Payload) (g : Nat),
      acceptChunk W buf c cid total dlen ch = (buf2, some f) →
      (g : Int) < (c : Int) - (W : Int) → buf2.lookup g = none) ∧
    (∀ (buf buf2 : Buffer) (c cid total dlen : Nat) (ch : Payload) (g : Nat),
      acceptChunk W buf c cid total dlen ch = (buf2, none) → g ≠ c →
      buf2.lookup g = buf.lookup g) :=
  ⟨fun buf buf2 c cid total dlen ch f g hcomp hg =>
      evicted_lookup_none W buf buf2 c cid total dlen ch f g hcomp hg,
   fun buf buf2 c cid total dlen ch g hnone hgc =>
      nocomplete_lookup_eq W buf buf2 c cid total dlen ch g hnone hgc⟩

/-- Witness for the amended C3, at the Pi client's window `W = 2`:
completing frame 20 evicts incomplete frame 10 (`10 < 20 - 2`), while a
non-completing chunk of frame 30 preserves other entries. -/
theorem C3_eviction_only_on_completion_witness :
    (acceptChunk 2 [(10, [(0, [5])])] 20 0 1 1 [3]).1.lookup 10 = none ∧
    (acceptChunk 2 [(17, [(0, [6])])] 30 0 2 1 [4]).1.lookup 17
      = some [(0, [6])] := by
  have hcomp : acceptChunk 2 [(10, [(0, [5])])] 20 0 1 1 [3] = ([], some [3]) := by
    decide
  have hnone : acceptChunk 2 [(17, [(0, [6])])] 30 0 2 1 [4]
      = ([(17, [(0, [6])]), (30, [(0, [4])])], none) := by decide
  constructor
  · have h := (C3_eviction_only_on_completion 2).1 [(10, [(0, [5])])] []
      20 0 1 1 [3] [3] 10 hcomp (by decide)
    rw [show (acceptChunk 2 [(10, [(0, [5])])] 20 0 1 1 [3]).1 = [] from by rw [hcomp]]
    exact h
  · have h := (C3_eviction_only_on_completion 2).2 [(17, [(0, [6])])]
      [(17, [(0, [6])]), (30, [(0, [4])])] 30 0 2 1 [4] 17 hnone (by decide)
    rw [show (acceptChunk 2 [(17, [(0, [6])])] 30 0 2 1 [4]).1
        = [(17, [(0, [6])]), (30, [(0, [4])])] from by rw [hnone]]
    exact h.trans (by decide)

/-! ## Order- and duplicate-insensitivity of reassembly (single frame) -/

theorem mem_dictInsert {β : Type} (l : List (Nat × β)) (k : Nat) (v : β)
    (p : Nat × β) (hp : p ∈ dictInsert l k v) : p = (k, v) ∨ p ∈ l := by
  induction l with
  | nil => simpa [dictInsert] using hp
  | cons q t ih =>
    obtain ⟨j, w⟩ := q
    by_cases hkj : k = j
    · subst hkj
      rcases List.mem_cons.mp (by simpa [dictInsert] using hp) with h | h
      · exact Or.inl h
      · exact Or.inr (List.mem_cons_of_mem _ h)
    · rcases List.mem_cons.mp (by simpa [dictInsert, hkj] using hp) with h | h
      · exact Or.inr (h ▸ List.mem_cons_self _ _)
      · rcases ih h with h' | h'
        · exact Or.inl h'
        · exact Or.inr (List.mem_cons_of_mem _ h')

theorem mem_keys_dictInsert {β : Type} (l : List (Nat × β)) (k : Nat) (v : β)
    (a : Nat) : a ∈ (dictInsert l k v).map Prod.fst ↔ a = k ∨ a ∈ l.map Prod.fst := by
  induction l with
  | nil => simp [dictInsert]
  | cons q t ih =>
    obtain ⟨j, w⟩ := q
    by_cases hkj : k = j
    · subst hkj
      simp [dictInsert]
    · simp only [dictInsert, if_neg hkj, List.map_cons, List.mem_cons, ih]
      tauto

theorem nodup_keys_dictInsert {β : Type} (l : List (Nat × β)) (k : Nat) (v : β)
    (h : (l.map Prod.fst).Nodup) : ((dictInsert l k v).map Prod.fst).Nodup := by
  induction l with
  | nil => simp [dictInsert]
  | cons q t ih =>
    obtain ⟨j, w⟩ := q
    simp only [List.map_cons, List.nodup_cons] at h
    by_cases hkj : k = j
    · subst hkj
      simpa [dictInsert] using h
    · simp only [dictInsert, if_neg hkj, List.map_cons, List.nodup_cons]
      refine ⟨?_, ih h.2⟩
      rw [mem_keys_dictInsert]
      rintro (h' | h')
      · exact hkj h'.symm
      · exact h.1 h'

theorem length_dictInsert_mem {β : Type} (l : List (Nat × β)) (k : Nat) (v : β)
    (h : k ∈ l.map Prod.fst) : (dictInsert l k v).length = l.length := by
  induction l with
  | nil => simp at h
  | cons q t ih =>
    obtain ⟨j, w⟩ := q
    by_cases hkj : k = j
    · subst hkj
      simp [dictInsert]
    · have ht : k ∈ t.map Prod.fst := by
        rw [List.map_cons] at h
        rcases List.mem_cons.mp h with h' | h'
        · exact absurd h' hkj
        · exact h'
      simp [dictInsert, hkj, ih ht]

theorem length_dictInsert_not_mem {β : Type} (l : List (Nat × β)) (k : Nat) (v : β)
    (h : k ∉ l.map Prod.fst) : (dictInsert l k v).length = l.length + 1 := by
  induction l with
  | nil => simp [dictInsert]
  | cons q t ih =>
    obtain ⟨j, w⟩ := q
    simp only [List.map_cons, List.mem_cons, not_or] at h
    simp [dictInsert, h.1, ih h.2]

theorem lookup_of_values (truth : Nat → Payload) :
    ∀ e : ChunkDict, (∀ p ∈ e, p.2 = truth p.1) →
      ∀ k ∈ e.map Prod.fst, e.lookup k = some (truth k) := by
  intro e hv k hk
  induction e with
  | nil => simp at hk
  | cons q t ih =>
    obtain ⟨j, w⟩ := q
    by_cases hkj : k = j
    · subst hkj
      have : w = truth k := hv (k, w) (List.mem_cons_self _ _)
      simp [List.lookup, this]
    · have hkt : k ∈ t.map Prod.fst := by
        rw [List.map_cons] at hk
        rcases List.mem_cons.mp hk with h' | h'
        · exact absurd h' hkj
        · exact h'
      have hvt : ∀ p ∈ t, p.2 = truth p.1 := fun p hp => hv p (List.mem_cons_of_mem _ hp)
      simp [List.lookup, beq_false_of_ne hkj, ih hvt hkt]

theorem mem_of_lt_of_nodup (n : Nat) (keys : List Nat) (hnd : keys.Nodup)
    (hlt : ∀ k ∈ keys, k < n) (hlen : keys.length = n) : ∀ i < n, i ∈ keys := by
  intro i hi
  have hsub : keys.toFinset ⊆ Finset.range n := by
    intro a ha
    exact Finset.mem_range.mpr (hlt a (List.mem_toFinset.mp ha))
  have hcard : keys.toFinset.card = n := by
    rw [List.toFinset_card_of_nodup hnd, hlen]
  have heq : keys.toFinset = Finset.range n :=
    Finset.eq_of_subset_of_card_le hsub (by rw [hcard, Finset.card_range])
  have : i ∈ keys.toFinset := heq ▸ Finset.mem_range.mpr hi
  exact List.mem_toFinset.mp this

/-- Per-frame buffer-entry invariant: the stored chunk dict has distinct
indices, each below `total_chunks`, each mapped to that chunk's true bytes. -/
def entryOK (n : Nat) (truth : Nat → Payload) (e : ChunkDict) : Prop :=
  (e.map Prod.fst).Nodup ∧ ∀ p ∈ e, p.1 < n ∧ p.2 = truth p.1

/-- The canonical reassembled frame:
`b''.join(chunks[i] for i in range(total_chunks))[:data_len]` with every
chunk holding its true bytes. -/
def reassembledFrame (n dlen : Nat) (truth : Nat → Payload) : Payload :=
  (((List.range n).map truth).flatten).take dlen

theorem complete_frame_eq (n dlen : Nat) (truth : Nat → Payload) (e : ChunkDict)
    (hOK : entryOK n truth e) (hlen : e.length = n) :
    (((List.range n).map (fun i => (e.lookup i).getD [])).flatten).take dlen
      = reassembledFrame n dlen truth := by
  unfold reassembledFrame
  congr 1
  congr 1
  apply List.map_congr_left
  intro i hi
  have hi' : i < n := List.mem_range.mp hi
  have hknd : (e.map Prod.fst).Nodup := hOK.1
  have hklt : ∀ k ∈ e.map Prod.fst, k < n := by
    intro k hk
    obtain ⟨p, hp, rfl⟩ := List.mem_map.mp hk
    exact (hOK.2 p hp).1
  have hklen : (e.map Prod.fst).length = n := by rw [List.length_map, hlen]
  have hik : i ∈ e.map Prod.fst := mem_of_lt_of_nodup n _ hknd hklt hklen i hi'
  rw [lookup_of_values truth e (fun p hp => (hOK.2 p hp).2) i hik]
  rfl

/-- Chunk indices currently stored for frame `fid`. -/
def frameKeys (fid : Nat) (buf : Buffer) : List Nat :=
  ((buf.lookup fid).getD []).map Prod.fst

/-- Reachable buffer states when only chunks of the single frame `fid` are
delivered: either no entry, or exactly one well-formed, still-incomplete
entry for `fid`. -/
def singleState (fid n : Nat) (truth : Nat → Payload) (buf : Buffer) : Prop :=
  buf = [] ∨ ∃ e, buf = [(fid, e)] ∧ entryOK n truth e ∧ e.length < n

theorem acceptChunk_single_step (W fid n dlen : Nat) (truth : Nat → Payload)
    (buf : Buffer) (hst : singleState fid n truth buf) (i : Nat) (hi : i < n) :
    singleState fid n truth (acceptChunk W buf fid i n dlen (truth i)).1 ∧
    (∀ f, (acceptChunk W buf fid i n dlen (truth i)).2 = some f →
      f = reassembledFrame n dlen truth) ∧
    ((acceptChunk W buf fid i n dlen (truth i)).2 = none →
      ∀ a, a ∈ frameKeys fid (acceptChunk W buf fid i n dlen (truth i)).1 ↔
        (a = i ∨ a ∈ frameKeys fid buf)) := by
  have hn : 0 < n := by omega
  obtain ⟨E, hbufE, hOK, hElen, hbufIns⟩ :
      ∃ E : ChunkDict, (buf.lookup fid).getD [] = E ∧ entryOK n truth E ∧
        E.length < n ∧
        ∀ X : ChunkDict, dictInsert buf fid X = [(fid, X)] := by
    rcases hst with rfl | ⟨e, rfl, hOK, hlt⟩
    · exact ⟨[], rfl, ⟨by simp, by simp⟩, hn, fun X => rfl⟩
    · refine ⟨e, by simp [List.lookup], hOK, hlt, fun X => by simp [dictInsert]⟩
  have hOK' : entryOK n truth (dictInsert E i (truth i)) := by
    constructor
    · exact nodup_keys_dictInsert E i (truth i) hOK.1
    · intro p hp
      rcases mem_dictInsert E i (truth i) p hp with rfl | hp'
      · exact ⟨hi, rfl⟩
      · exact hOK.2 p hp'
  have hlen' : (dictInsert E i (truth i)).length ≤ n := by
    by_cases hmemi : i ∈ E.map Prod.fst
    · rw [length_dictInsert_mem E i (truth i) hmemi]; omega
    · rw [length_dictInsert_not_mem E i (truth i) hmemi]; omega
  rcases hr : acceptChunk W buf fid i n dlen (truth i) with ⟨buf2, em⟩
  cases em with
  | some f =>
    obtain ⟨hcomp, hbuf2, hf⟩ := acceptChunk_some _ _ _ _ _ _ _ _ _ hr
    rw [hbufE] at hcomp hbuf2 hf
    dsimp only
    refine ⟨?_, ?_, ?_⟩
    · left
      rw [hbuf2, hbufIns]
      simp [dictErase]
    · intro f0 hf0
      have : f = f0 := by simpa using hf0
      subst this
      rw [hf]
      exact complete_frame_eq n dlen truth _ hOK' hcomp
    · intro hnone
      simp at hnone
  | none =>
    obtain ⟨hne, hbuf2⟩ := acceptChunk_none _ _ _ _ _ _ _ _ hr
    rw [hbufE] at hne hbuf2
    dsimp only
    refine ⟨?_, ?_, ?_⟩
    · right
      exact ⟨dictInsert E i (truth i), by rw [hbuf2, hbufIns],
        hOK', lt_of_le_of_ne hlen' hne⟩
    · intro f0 hf0
      simp at hf0
    · intro _ a
      show a ∈ frameKeys fid buf2 ↔ _
      rw [hbuf2, hbufIns]
      unfold frameKeys
      rw [hbufE]
      simp only [List.lookup, beq_self_eq_true, Option.getD_some]
      exact mem_keys_dictInsert E i (truth i) a

theorem runChunks_invariant (W fid n dlen : Nat) (truth : Nat → Payload) :
    ∀ (ds : List Nat) (buf : Buffer), singleState fid n truth buf →
      (∀ i ∈ ds, i < n) →
      singleState fid n truth (runChunks W fid n dlen truth buf ds).1 ∧
      (∀ f ∈ (runChunks W fid n dlen truth buf ds).2,
        f = reassembledFrame n dlen truth) ∧
      ((runChunks W fid n dlen truth buf ds).2 = [] →
        ∀ a, (a ∈ frameKeys fid buf ∨ a ∈ ds) →
          a ∈ frameKeys fid (runChunks W fid n dlen truth buf ds).1) := by
  intro ds
  induction ds with
  | nil =>
    intro buf hst _
    refine ⟨hst, by simp [runChunks], ?_⟩
    intro _ a ha
    rcases ha with h | h
    · simpa [runChunks] using h
    · simp at h
  | cons i is ih =>
    intro buf hst hos
    have hi : i < n := hos i (List.mem_cons_self _ _)
    have his : ∀ j ∈ is, j < n := fun j hj => hos j (List.mem_cons_of_mem _ hj)
    have hstep := acceptChunk_single_step W fid n dlen truth buf hst i hi
    have hrec := ih (acceptChunk W buf fid i n dlen (truth i)).1 hstep.1 his
    have hrun : runChunks W fid n dlen truth buf (i :: is)
        = ((runChunks W fid n dlen truth
              (acceptChunk W buf fid i n dlen (truth i)).1 is).1,
           match (acceptChunk W buf fid i n dlen (truth i)).2 with
           | some f => f :: (runChunks W fid n dlen truth
               (acceptChunk W buf fid i n dlen (truth i)).1 is).2
           | none => (runChunks W fid n dlen truth
               (acceptChunk W buf fid i n dlen (truth i)).1 is).2) := rfl
    rw [hrun]
    refine ⟨hrec.1, ?_, ?_⟩
    · intro f hf
      cases hr2 : (acceptChunk W buf fid i n dlen (truth i)).2 with
      | some f0 =>
        rw [hr2] at hf
        rcases List.mem_cons.mp hf with rfl | hf'
        · exact hstep.2.1 f hr2
        · exact hrec.2.1 f hf'
      | none =>
        rw [hr2] at hf
        exact hrec.2.1 f hf
    · intro hemp a ha
      cases hr2 : (acceptChunk W buf fid i n dlen (truth i)).2 with
      | some f0 =>
        rw [hr2] at hemp
        simp at hemp
      | none =>
        rw [hr2] at hemp
        have hkeys := hstep.2.2 hr2
        apply hrec.2.2 hemp
        rcases ha with hbuf | hds
        · exact Or.inl ((hkeys a).mpr (Or.inr hbuf))
        · rcases List.mem_cons.mp hds with rfl | hmem
          · exact Or.inl ((hkeys a).mpr (Or.inl rfl))
          · exact Or.inr hmem

/-- **C4.** Delivering the complete chunk set of a frame to the reassembly
buffer in any arrival order, duplicate deliveries of the same chunk index
included (last write wins), always completes the frame and every completed
frame it emits is the same canonical reassembly
`b''.join(chunks[i] for i in range(total_chunks))[:data_len]`; moreover the
frame's buffer entry is deleted the moment a completion is emitted.  Here
`ds` is the arbitrary delivery order: it may repeat indices, must stay below
`total_chunks`, and must cover every index. -/
theorem C4_reassembly_order_insensitive (W fid n dlen : Nat)
    (truth : Nat → Payload) (ds : List Nat)
    (hn : 0 < n) (hmem : ∀ i ∈ ds, i < n) (hcov : ∀ i < n, i ∈ ds) :
    (runChunks W fid n dlen truth [] ds).2 ≠ [] ∧
    (∀ f ∈ (runChunks W fid n dlen truth [] ds).2,
      f = reassembledFrame n dlen truth) ∧
    (∀ (buf buf2 : Buffer) (cid : Nat) (ch f2 : Payload),
      acceptChunk W buf fid cid n dlen ch = (buf2, some f2) →
      buf2.lookup fid = none) := by
  have h := runChunks_invariant W fid n dlen truth ds [] (Or.inl rfl) hmem
  refine ⟨?_, h.2.1, ?_⟩
  · intro hemp
    have hkeys := h.2.2 hemp
    have hall : ∀ i < n, i ∈ frameKeys fid (runChunks W fid n dlen truth [] ds).1 :=
      fun i hi => hkeys i (Or.inr (hcov i hi))
    rcases h.1 with hfin | ⟨e, hfin, hOK, hlt⟩
    · have h0 := hall 0 hn
      rw [hfin] at h0
      simp [frameKeys, List.lookup] at h0
    · have hKeq : frameKeys fid (runChunks W fid n dlen truth [] ds).1
          = e.map Prod.fst := by
        rw [hfin]
        unfold frameKeys
        simp [List.lookup]
      have hsub : Finset.range n ⊆ (e.map Prod.fst).toFinset := by
        intro a ha
        rw [List.mem_toFinset]
        have := hall a (Finset.mem_range.mp ha)
        rwa [hKeq] at this
      have hcard : n ≤ (e.map Prod.fst).toFinset.card := by
        calc n = (Finset.range n).card := (Finset.card_range n).symm
          _ ≤ _ := Finset.card_le_card hsub
      rw [List.toFinset_card_of_nodup hOK.1, List.length_map] at hcard
      omega
  · intro buf buf2 cid ch f2 hcomp
    exact completed_lookup_none W buf buf2 fid cid n dlen ch f2 hcomp

/-- Witness for C4: a two-chunk frame delivered in order `1, 0, 1`
(out of order, with a duplicate) emits exactly the canonical frame. -/
theorem C4_reassembly_order_insensitive_witness :
    (runChunks 5 7 2 2 (fun i => [i + 10]) [] [1, 0, 1]).2 ≠ [] ∧
    ∀ f ∈ (runChunks 5 7 2 2 (fun i => [i + 10]) [] [1, 0, 1]).2, f = [10, 11] := by
  have h := C4_reassembly_order_insensitive 5 7 2 2 (fun i => [i + 10]) [1, 0, 1]
    (by decide) (by decide) (by decide)
  exact ⟨h.1, fun f hf => (h.2.1 f hf).trans (by decide)⟩

/-! ## Best-effort chunk sending (C7) -/

inductive SendOutcome
  | sent
  | failedLogged
  | raised
deriving DecidableEq

/-- The per-chunk body of `send_frame_udp`'s loop over chunk indices.
With `catchErrors = true` this follows `computer_server_lowlatency.py`,
where `sock.sendto` is wrapped in `try/except` and a failure is logged
before the loop continues; with `catchErrors = false` it follows
`pi_client_lowlatency.py`, where `sock.sendto` is called bare, so an
exception propagates and aborts the remaining iterations.  `fails i` says
whether sending chunk `i` raises.  Returns the outcome of every attempted
`sendto` call, in order, plus whether the loop was aborted. -/
def sendChunksLoop (catchErrors : Bool) (fails : Nat → Bool) :
    List Nat → List (Nat × SendOutcome) × Bool
  | [] => ([], false)
  | i :: rest =>
    if fails i then
      if catchErrors then
        ((i, SendOutcome.failedLogged) :: (sendChunksLoop catchErrors fails rest).1,
          (sendChunksLoop catchErrors fails rest).2)
      else ([(i, SendOutcome.raised)], true)
    else
      ((i, SendOutcome.sent) :: (sendChunksLoop catchErrors fails rest).1,
        (sendChunksLoop catchErrors fails rest).2)

/-- **C7, counterexample.**  The claim says both senders keep attempting the
remaining chunks after one chunk's send fails.  For a two-chunk frame whose
first send fails, the Pi-side loop (no `try/except` around `sendto`)
attempts only chunk 0 and aborts, never attempting chunk 1, while the
computer-side loop attempts both. -/
theorem C7_pi_abort_counterexample :
    (sendChunksLoop false (fun i => i == 0) [0, 1]).1.map Prod.fst = [0] ∧
    (sendChunksLoop false (fun i => i == 0) [0, 1]).2 = true ∧
    (sendChunksLoop true (fun i => i == 0) [0, 1]).1.map Prod.fst = [0, 1] := by
  refine ⟨?_, ?_, ?_⟩ <;> decide

theorem server_send_attempts_all (fails : Nat → Bool) :
    ∀ l : List Nat, (sendChunksLoop true fails l).1.map Prod.fst = l ∧
      (sendChunksLoop true fails l).2 = false := by
  intro l
  induction l with
  | nil => simp [sendChunksLoop]
  | cons i rest ih =>
    by_cases hf : fails i
    · simp [sendChunksLoop, hf, ih.1, ih.2]
    · simp [sendChunksLoop, hf, ih.1, ih.2]

theorem pi_send_stops_at_first_failure (fails : Nat → Bool) :
    ∀ (l1 : List Nat) (j : Nat) (l2 : List Nat),
      (∀ i ∈ l1, fails i = false) → fails j = true →
      (sendChunksLoop false fails (l1 ++ j :: l2)).1.map Prod.fst = l1 ++ [j] ∧
      (sendChunksLoop false fails (l1 ++ j :: l2)).2 = true := by
  intro l1
  induction l1 with
  | nil =>
    intro j l2 _ hj
    simp [sendChunksLoop, hj]
  | cons a t ih =>
    intro j l2 hok hj
    have ha : fails a = false := hok a (List.mem_cons_self _ _)
    have ht : ∀ i ∈ t, fails i = false := fun i hi => hok i (List.mem_cons_of_mem _ hi)
    have h := ih j l2 ht hj
    simp [sendChunksLoop, ha, h.1, h.2]

/-- **C7 (amended).**  The computer-side sender is best-effort per chunk:
every chunk is attempted no matter which sends fail, and the loop never
aborts.  The Pi-side sender is not: it attempts chunks up to and including
the first failing one and then aborts, so chunks after a failure are never
attempted (they are attempted only when no send fails). -/
theorem C7_send_failure_handling (fails : Nat → Bool) (l l1 : List Nat)
    (j : Nat) (l2 : List Nat) :
    ((sendChunksLoop true fails l).1.map Prod.fst = l ∧
      (sendChunksLoop true fails l).2 = false) ∧
    ((∀ i ∈ l, fails i = false) →
      (sendChunksLoop false fails l).1.map Prod.fst = l ∧
        (sendChunksLoop false fails l).2 = false) ∧
    ((∀ i ∈ l1, fails i = false) → fails j = true →
      (sendChunksLoop false fails (l1 ++ j :: l2)).1.map Prod.fst = l1 ++ [j] ∧
        (sendChunksLoop false fails (l1 ++ j :: l2)).2 = true) := by
  refine ⟨server_send_attempts_all fails l, ?_, pi_send_stops_at_first_failure fails l1 j l2⟩
  intro hok
  induction l with
  | nil => simp [sendChunksLoop]
  | cons i rest ih =>
    have hi : fails i = false := hok i (List.mem_cons_self _ _)
    have hrest := ih fun a ha => hok a (List.mem_cons_of_mem _ ha)
    simp [sendChunksLoop, hi, hrest.1, hrest.2]

/-- Witness for C7: with chunk 1 of `[0, 1, 2]` failing, the computer side
attempts all three chunks and the Pi side attempts only `[0, 1]`. -/
theorem C7_send_failure_handling_witness :
    (sendChunksLoop true (fun i => decide (i = 1)) [0, 1, 2]).1.map Prod.fst
        = [0, 1, 2] ∧
    (sendChunksLoop false (fun i => decide (i = 1)) [0, 1, 2]).1.map Prod.fst
        = [0, 1] := by
  have h := C7_send_failure_handling (fun i => decide (i = 1)) [0, 1, 2] [0] 1 [2]
  exact ⟨h.1.1, (h.2.2 (by decide) (by decide)).1⟩

/-! ## Mode routing in `process_frame` (C10) -/

/-- The `processors` dict of `process_frame`, identical in
`computer_server.py` and `computer_server_lowlatency.py`; the four per-mode
pixel transforms are opaque parameters. -/
def processors (pn pc pg pt : α → α) : List (String × (α → α)) :=
  [("normal", pn), ("canny", pc), ("night", pg), ("thermal", pt)]

/-- `processors.get(mode, process_normal)(frame)`. -/
def process_frame (pn pc pg pt : α → α) (mode : String) (frame : α) : α :=
  (((processors pn pc pg pt).lookup mode).getD pn) frame

/-- **C10.** For any `current_mode` string other than the four recognized
modes, `process_frame` still applies a processor — the normal-mode one, via
the `.get(mode, process_normal)` fallback — so frame processing is total
over arbitrary mode strings. -/
theorem C10_unknown_mode_falls_back_to_normal (pn pc pg pt : α → α)
    (mode : String) (frame : α)
    (h1 : mode ≠ "normal") (h2 : mode ≠ "canny")
    (h3 : mode ≠ "night") (h4 : mode ≠ "thermal") :
    process_frame pn pc pg pt mode frame = pn frame := by
  unfold process_frame processors
  simp [List.lookup, beq_false_of_ne h1, beq_false_of_ne h2,
    beq_false_of_ne h3, beq_false_of_ne h4]

/-- Witness for C10 at the unknown mode string `"fancy"`. -/
theorem C10_unknown_mode_falls_back_to_normal_witness :
    process_frame (fun n : Nat => n + 1) id id id "fancy" 0 = 1 :=
  (C10_unknown_mode_falls_back_to_normal (fun n : Nat => n + 1) id id id
    "fancy" 0 (by decide) (by decide) (by decide) (by decide)).trans rfl

/-! ## Throughput metrics (C8) -/

/-- `frame_times.append(t)` for `frame_times = deque(maxlen=30)`: appending
to a full 30-entry deque drops the oldest entry.  Timestamps are modelled as
rationals. -/
def pushTime (times : List ℚ) (t : ℚ) : List ℚ :=
  if times.length < 30 then times ++ [t] else times.drop 1 ++ [t]

/-- The FPS figure in `main` of `computer_server_lowlatency.py`:
`len(frame_times) / (frame_times[-1] - frame_times[0])`, computed and
printed only under `len(frame_times) > 1`; otherwise nothing is reported. -/
def fpsReport (times : List ℚ) : Option ℚ :=
  if 1 < times.length then
    some ((times.length : ℚ) / (times.getLast?.getD 0 - times.head?.getD 0))
  else none

/-- **C8.** Throughput is computed from the fixed-capacity (30-entry)
rolling window of completion timestamps as count divided by (newest minus
oldest); with fewer than 2 samples nothing is reported at all, and whenever
a figure is reported from strictly increasing timestamps it is positive —
in particular never zero.  Appending preserves the 30-entry capacity. -/
theorem C8_throughput_window :
    (∀ times : List ℚ, times.length ≤ 1 → fpsReport times = none) ∧
    (∀ times : List ℚ, 1 < times.length →
      fpsReport times
        = some ((times.length : ℚ) / (times.getLast?.getD 0 - times.head?.getD 0))) ∧
    (∀ (times : List ℚ) (v : ℚ), times.Chain' (· < ·) →
      fpsReport times = some v → 0 < v) ∧
    (∀ (times : List ℚ) (t : ℚ), times.length ≤ 30 →
      (pushTime times t).length ≤ 30) := by
  refine ⟨?_, ?_, ?_, ?_⟩
  · intro times hle
    unfold fpsReport
    rw [if_neg (by omega)]
  · intro times hlt
    unfold fpsReport
    rw [if_pos hlt]
  · intro times v hchain hrep
    unfold fpsReport at hrep
    split at hrep
    · rename_i hlen
      match times, hlen with
      | a :: b :: rest, _ =>
        have hpair := (List.chain'_iff_pairwise.mp hchain)
        have hgl : (b :: rest).getLast? = some ((b :: rest).getLast (by simp)) := by
          rw [List.getLast?_eq_getLast _ (by simp)]
        have hmem : (b :: rest).getLast (by simp) ∈ b :: rest := List.getLast_mem _
        have hlt' : a < (b :: rest).getLast (by simp) := by
          rcases List.pairwise_cons.mp hpair with ⟨ha, -⟩
          exact ha _ hmem
        have hv : v = ((a :: b :: rest).length : ℚ)
            / ((b :: rest).getLast (by simp) - a) := by
          have := hrep
          rw [List.getLast?_cons_cons, hgl] at this
          simpa using this.symm
        rw [hv]
        apply div_pos
        · positivity
        · linarith
    · exact absurd hrep (by simp)
  · intro times t hle
    unfold pushTime
    split
    · simp; omega
    · simp
      omega

/-- Witness for C8: one sample reports nothing; two increasing samples
report the positive figure `2 / (2 - 0) = 1`. -/
theorem C8_throughput_window_witness :
    fpsReport [(3 : ℚ)] = none ∧
    fpsReport [(0 : ℚ), 2] = some 1 ∧
    (0 : ℚ) < 1 ∧
    (pushTime [(3 : ℚ)] 4).length ≤ 30 := by
  have h := C8_throughput_window
  have hval : fpsReport [(0 : ℚ), 2] = some 1 := by
    rw [h.2.1 [(0 : ℚ), 2] (by norm_num)]
    norm_num
  refine ⟨h.1 [(3 : ℚ)] (by norm_num), hval, ?_, h.2.2.2 [(3 : ℚ)] 4 (by norm_num)⟩
  exact h.2.2.1 [(0 : ℚ), 2] 1
    (by norm_num [List.chain'_cons, List.chain'_singleton]) hval

/-! ## Mode control plane (C9)

`current_mode` is a single string guarded by `mode_lock`; every reader and
writer touches it only inside a `with mode_lock:` critical section
(`audio_server_thread` in `computer_server.py`, `keyboard_control` and
`process_frame` in `computer_server_lowlatency.py`).  Mutual exclusion makes
every critical section atomic, so a concurrent execution is an interleaving:
a sequence of atomic `set`/`get` events. -/

inductive ModeEvent
  | set (m : String)
  | get
deriving DecidableEq

/-- Effect of one critical section on `current_mode`. -/
def modeStep (s : String) : ModeEvent → String
  | ModeEvent.set m => m
  | ModeEvent.get => s

/-- `current_mode` after an interleaving of critical sections, starting
from the default. -/
def runMode (init : String) (es : List ModeEvent) : String :=
  es.foldl modeStep init

/-- The values written by the `set` events, in order. -/
def setsOf : List ModeEvent → List String
  | [] => []
  | ModeEvent.set m :: es => m :: setsOf es
  | ModeEvent.get :: es => setsOf es

/-- The value written by the last completed `set`, if any. -/
def lastSet : List ModeEvent → Option String
  | [] => none
  | e :: es =>
    match lastSet es with
    | some m => some m
    | none =>
      match e with
      | ModeEvent.set m => some m
      | ModeEvent.get => none

/-- The snapshots returned by the `get` events, in order. -/
def getObs (init : String) : List ModeEvent → List String
  | [] => []
  | ModeEvent.get :: es => init :: getObs init es
  | ModeEvent.set m :: es => getObs m es

/-- **C9.** Under the `mode_lock` serialization, `current_mode` ends equal
to the value of whichever `set` critical section completed last (the default
if none ran), and every `get` observes only the default or a value some
completed `set` wrote — never an intermediate or torn value. -/
theorem C9_last_set_wins (init : String) (es : List ModeEvent) :
    runMode init es = (lastSet es).getD init ∧
    ∀ v ∈ getObs init es, v = init ∨ v ∈ setsOf es := by
  constructor
  · induction es generalizing init with
    | nil => rfl
    | cons e es ih =>
      cases e with
      | set m =>
        have h1 : runMode init (ModeEvent.set m :: es) = runMode m es := rfl
        rw [h1, ih m]
        cases h : lastSet es <;> simp [lastSet, h]
      | get =>
        have h1 : runMode init (ModeEvent.get :: es) = runMode init es := rfl
        rw [h1, ih init]
        cases h : lastSet es <;> simp [lastSet, h]
  · induction es generalizing init with
    | nil => intro v hv; simp [getObs] at hv
    | cons e es ih =>
      cases e with
      | set m =>
        intro v hv
        have hv' : v ∈ getObs m es := hv
        rcases ih m v hv' with rfl | hmem
        · exact Or.inr (List.mem_cons_self _ _)
        · exact Or.inr (List.mem_cons_of_mem _ hmem)
      | get =>
        intro v hv
        rcases List.mem_cons.mp hv with rfl | hv'
        · exact Or.inl rfl
        · exact ih init v hv'

/-- Witness for C9: voice sets `canny`, a frame reads the mode, keyboard
sets `night`; the final mode is `night` and the read saw `canny`. -/
theorem C9_last_set_wins_witness :
    runMode "normal" [ModeEvent.set "canny", ModeEvent.get, ModeEvent.set "night"]
        = "night" ∧
    ("canny" = "normal" ∨
      "canny" ∈ setsOf [ModeEvent.set "canny", ModeEvent.get, ModeEvent.set "night"]) := by
  have h := C9_last_set_wins "normal"
    [ModeEvent.set "canny", ModeEvent.get, ModeEvent.set "night"]
  exact ⟨h.1.trans (by decide), h.2 "canny" (by decide)⟩

/-! ## Voice command parsing (C5)

`parse_voice_command` in `computer_server.py`: lowercase and strip the
transcript, require one of the gating tokens (`"mode"`, `"camera"`, or a
digit `1`–`4` somewhere in the text), then return the first mode in the
keyword table one of whose keywords occurs as a substring.  It is a pure
function of its argument (it reads no mutable state), so determinism is
inherent in the embedding. -/

/-- ASCII lowercasing of one character, as `str.lower` does on this input
alphabet. -/
def lowerChar (c : Char) : Char :=
  if 'A' ≤ c ∧ c ≤ 'Z' then Char.ofNat (c.toNat + 32) else c

def isSpaceChar (c : Char) : Bool :=
  c = ' ' || c = '\t' || c = '\n' || c = '\r'

/-- `text.lower().strip()`, as a character list. -/
def normalizeText (s : String) : List Char :=
  (((s.toList.map lowerChar).dropWhile isSpaceChar).reverse.dropWhile
      isSpaceChar).reverse

/-- Python's substring test `pat in text`. -/
def hasSub : List Char → List Char → Bool
  | [], pat => pat.isEmpty
  | c :: t, pat => pat.isPrefixOf (c :: t) || hasSub t pat

def containsTok (t : List Char) (pat : String) : Bool := hasSub t pat.toList

/-- The `mode_keywords` table, in dict insertion order. -/
def mode_keywords : List (String × List String) :=
  [("normal", ["normal", "regular", "standard", "default", "1", "one", "won"]),
   ("canny", ["canny", "edge", "edges", "candy", "2", "two", "to", "too"]),
   ("night", ["night", "night vision", "green", "dark", "3", "three", "tree"]),
   ("thermal", ["thermal", "heat", "infrared", "thermo", "4", "four", "for"])]

/-- The nested `for mode, keywords ... for keyword ... return mode` scan:
first table row with a matching keyword wins. -/
def firstModeMatch (t : List Char) : List (String × List String) → Option String
  | [] => none
  | (m, keys) :: rest =>
    if keys.any (fun k => containsTok t k) then some m else firstModeMatch t rest

/-- `parse_voice_command(text)`. -/
def parse_voice_command (text : String) : Option String :=
  if containsTok (normalizeText text) "mode" ||
      containsTok (normalizeText text) "camera" ||
      containsTok (normalizeText text) "1" || containsTok (normalizeText text) "2" ||
      containsTok (normalizeText text) "3" || containsTok (normalizeText text) "4" then
    firstModeMatch (normalizeText text) mode_keywords
  else none

/-- The caller in `audio_server_thread`: only a successful parse replaces
`current_mode` (under the lock); on `None` the state is untouched. -/
def applyVoiceCommand (current : String) (text : String) : String :=
  match parse_voice_command text with
  | some m => m
  | none => current

/-- **C5, counterexample.**  `"four"` is a configured alias of the thermal
mode, yet `parse_voice_command "four"` returns `none`: the text contains
none of the gating tokens `"mode"`/`"camera"`/digits `1`–`4`, so the
keyword table is never consulted and the alias does not map to its mode. -/
theorem C5_bare_alias_counterexample :
    (mode_keywords.lookup "thermal").getD [] = ["thermal", "heat", "infrared",
      "thermo", "4", "four", "for"] ∧
    "four" ∈ ((mode_keywords.lookup "thermal").getD []) ∧
    parse_voice_command "four" = none := by
  refine ⟨by decide, by decide, by decide⟩

/-- **C5 (amended).**  `parse_voice_command` is a pure, deterministic
function of the text.  Every configured alias maps to its mode once the
gate is passed — e.g. in a command of the form `"mode " ++ alias` — while a
bare alias without a gating token (such as `"four"`, per the
counterexample) maps to `none`; unmatched text maps to `none`, in which
case the caller leaves `current_mode` unchanged; and
`parse_voice_command "let's use night vision mode"` returns the night
mode. -/
theorem C5_parse_voice_command_aliases :
    (∀ p ∈ mode_keywords, ∀ a ∈ p.2,
      parse_voice_command ("mode " ++ a) = some p.1) ∧
    parse_voice_command "let's use night vision mode" = some "night" ∧
    parse_voice_command "hello there" = none ∧
    (∀ current text, parse_voice_command text = none →
      applyVoiceCommand current text = current) := by
  refine ⟨by decide, by decide, by decide, ?_⟩
  intro current text hnone
  unfold applyVoiceCommand
  rw [hnone]

/-- Witness for C5: `"mode night vision"` selects the night mode via the
alias table, and an unparsable command leaves the mode unchanged. -/
theorem C5_parse_voice_command_aliases_witness :
    parse_voice_command "mode night vision" = some "night" ∧
    applyVoiceCommand "normal" "hello there" = "normal" := by
  have h := C5_parse_voice_command_aliases
  exact ⟨h.1 ("night", ["night", "night vision", "green", "dark", "3", "three",
      "tree"]) (by decide) "night vision" (by decide),
    h.2.2.2 "normal" "hello there" h.2.2.1⟩

/-! ## Stream-mode receive (C6)

The TCP byte stream is modelled as the list of byte chunks successive
`recv` calls deliver; an empty chunk means the peer closed the connection.
A receive that raises `ConnectionError` — or would block forever on an
exhausted model stream — yields `none`: in every such case no payload
reaches the caller. -/

abbrev ByteStream := List (List Nat)

/-- The accumulation loop `while len(data) < goal: packet = conn.recv(4096);
if not packet: raise; data += packet` shared by both sides' payload reads
and by the server's prefix read (`main` in `computer_server.py`, the main
loop of `pi_client.py`). -/
def recvAll (goal : Nat) (data : List Nat) : ByteStream → Option (List Nat × ByteStream)
  | [] => if goal ≤ data.length then some (data, []) else none
  | pkt :: rest =>
    if goal ≤ data.length then some (data, pkt :: rest)
    else if pkt.isEmpty then none
    else recvAll goal (data ++ pkt) rest

theorem recvAll_length (goal : Nat) :
    ∀ (s : ByteStream) (data d : List Nat) (s' : ByteStream),
      recvAll goal data s = some (d, s') → goal ≤ d.length := by
  intro s
  induction s with
  | nil =>
    intro data d s' h
    unfold recvAll at h
    split at h
    · simp only [Option.some.injEq, Prod.mk.injEq] at h
      rename_i hle
      rw [← h.1]
      exact hle
    · simp at h
  | cons pkt rest ih =>
    intro data d s' h
    unfold recvAll at h
    split at h
    · simp only [Option.some.injEq, Prod.mk.injEq] at h
      rename_i hle
      rw [← h.1]
      exact hle
    · split at h
      · simp at h
      · exact ih _ _ _ h

/-- The server-side `Receive` of `main` in `computer_server.py`: read until
4 prefix bytes are buffered, decode the big-endian length, read until that
many payload bytes are buffered, hand exactly `msg_size` bytes to
`pickle.loads` and carry the rest over to the next message.  Returns
`(announced size, payload, carry-over, remaining stream)`. -/
def serverReceive (carry : List Nat) (s : ByteStream) :
    Option (Nat × List Nat × List Nat × ByteStream) :=
  (recvAll 4 carry s).bind fun r =>
    (recvAll (fromBytesBE (r.1.take 4)) (r.1.drop 4) r.2).bind fun r2 =>
      some (fromBytesBE (r.1.take 4),
        r2.1.take (fromBytesBE (r.1.take 4)),
        r2.1.drop (fromBytesBE (r.1.take 4)), r2.2)

/-- The Pi-side prefix loop in `pi_client.py`:
`packet = client_socket.recv(4 - len(size_data))` — the request size caps
each read, so a packet crossing the boundary leaves its tail in the socket
buffer (modelled by pushing the tail back onto the stream). -/
def recvExactLoop (target : Nat) (acc : List Nat) :
    ByteStream → Option (List Nat × ByteStream)
  | [] => if target ≤ acc.length then some (acc, []) else none
  | pkt :: rest =>
    if target ≤ acc.length then some (acc, pkt :: rest)
    else if pkt.isEmpty then none
    else if pkt.length ≤ target - acc.length then
      recvExactLoop target (acc ++ pkt) rest
    else
      some (acc ++ pkt.take (target - acc.length),
        pkt.drop (target - acc.length) :: rest)

/-- The Pi-side `Receive` of the main loop in `pi_client.py`: 4 prefix bytes
via capped reads, then `recv(4096)` calls accumulated into `frame_data`
until `len(frame_data) >= msg_size` — and the whole of `frame_data`, which
can exceed `msg_size`, is handed to `pickle.loads`. -/
def piReceive (s : ByteStream) : Option (Nat × List Nat × ByteStream) :=
  (recvExactLoop 4 [] s).bind fun r =>
    (recvAll (fromBytesBE r.1) [] r.2).bind fun r2 =>
      some (fromBytesBE r.1, r2.1, r2.2)

/-- **C6, counterexample.**  The claim says every stream-mode `Receive`
returns exactly the announced byte count.  On the Pi side, when an
underlying read crosses the message boundary (prefix announcing 1 byte,
then a 2-byte read), `frame_data` of length 2 is handed to the caller —
more than announced, so not exactly the announced count. -/
theorem C6_pi_receive_overshoot_counterexample :
    piReceive [[0, 0, 0, 1], [9, 9]] = some (1, [9, 9], []) ∧
    ([9, 9] : List Nat).length ≠ 1 := by
  refine ⟨by decide, by decide⟩

/-- **C6 (amended).**  Neither side's `Receive` ever silently returns fewer
bytes than the 4-byte big-endian prefix announced: the computer-side
`Receive` returns exactly the announced count (or raises, returning no
payload), and the Pi-side `Receive` returns at least the announced count
(or raises) — it can exceed the count only when an underlying read crosses
the message boundary, as in the counterexample. -/
theorem C6_receive_never_short :
    (∀ (carry : List Nat) (s : ByteStream) (sz : Nat) (p rest : List Nat)
        (s2 : ByteStream),
      serverReceive carry s = some (sz, p, rest, s2) → p.length = sz) ∧
    (∀ (s : ByteStream) (sz : Nat) (p : List Nat) (s2 : ByteStream),
      piReceive s = some (sz, p, s2) → sz ≤ p.length) := by
  constructor
  · intro carry s sz p rest s2 h
    unfold serverReceive at h
    obtain ⟨r, hr, h2⟩ := Option.bind_eq_some.mp h
    obtain ⟨r2, hr2, h3⟩ := Option.bind_eq_some.mp h2
    have hlen : fromBytesBE (r.1.take 4) ≤ r2.1.length :=
      recvAll_length _ _ _ _ _ hr2
    simp only [Option.some.injEq, Prod.mk.injEq] at h3
    obtain ⟨hsz, hp, -, -⟩ := h3
    rw [← hp, ← hsz, List.length_take]
    omega
  · intro s sz p s2 h
    unfold piReceive at h
    obtain ⟨r, hr, h2⟩ := Option.bind_eq_some.mp h
    obtain ⟨r2, hr2, h3⟩ := Option.bind_eq_some.mp h2
    have hlen : fromBytesBE r.1 ≤ r2.1.length := recvAll_length _ _ _ _ _ hr2
    simp only [Option.some.injEq, Prod.mk.injEq] at h3
    obtain ⟨hsz, hp, -⟩ := h3
    rw [← hp, ← hsz]
    exact hlen

/-- Witness for the amended C6 on concrete streams: the server side returns
exactly the 2 announced bytes, the Pi side at least the 3 announced. -/
theorem C6_receive_never_short_witness :
    serverReceive [] [[0, 0, 0, 2], [5, 6]] = some (2, [5, 6], [], []) ∧
    ([5, 6] : List Nat).length = 2 ∧
    piReceive [[0, 0, 0, 3], [7, 8, 9]] = some (3, [7, 8, 9], []) ∧
    3 ≤ ([7, 8, 9] : List Nat).length := by
  have hs : serverReceive [] [[0, 0, 0, 2], [5, 6]] = some (2, [5, 6], [], []) := by
    decide
  have hp : piReceive [[0, 0, 0, 3], [7, 8, 9]] = some (3, [7, 8, 9], []) := by
    decide
  exact ⟨hs, C6_receive_never_short.1 [] [[0, 0, 0, 2], [5, 6]] 2 [5, 6] [] [] hs,
    hp, C6_receive_never_short.2 [[0, 0, 0, 3], [7, 8, 9]] 3 [7, 8, 9] [] hp⟩
